import Mathlib

/-!
Verification of the pipelined multi-core RISC-V simulator
(`src/simulator.cpp`, class `RiscVSimulator`, pipelined variant).

The C++ source is shallowly embedded below: C++ `int` is modelled as `Int`
(no claim exercises 32-bit overflow of register values), `std::stoi` is
modelled exactly (including the distinction between `std::invalid_argument`,
which the source catches, and `std::out_of_range`, which it does not),
in-place mutation is modelled by explicit state threading in statement order,
and the unbounded `while` loop of `execute()` is modelled with an explicit
cycle budget (fuel), one unit per iteration of the C++ loop.
-/

namespace Riscv

/-- Model of the two exceptions `std::stoi` can throw.  The C++ source
catches `std::invalid_argument` but never `std::out_of_range`. -/
inductive CppExn where
  | invalidArgument
  | outOfRange
deriving DecidableEq

/-- Decidable equality for `Except`, so that concrete runs of the model
can be checked by evaluation. -/
instance exceptDecEq {ε α : Type} [DecidableEq ε] [DecidableEq α] :
    DecidableEq (Except ε α) := fun a b =>
  match a, b with
  | .ok x, .ok y =>
    if h : x = y then isTrue (by rw [h])
    else isFalse (by intro hh; cases hh; exact h rfl)
  | .error x, .error y =>
    if h : x = y then isTrue (by rw [h])
    else isFalse (by intro hh; cases hh; exact h rfl)
  | .ok _, .error _ => isFalse (by intro hh; cases hh)
  | .error _, .ok _ => isFalse (by intro hh; cases hh)

/-- C++ `INT_MAX` on the (LP64) platform the simulator targets. -/
def INT_MAX : Int := 2147483647

/-- C++ `INT_MIN`. -/
def INT_MIN : Int := -2147483648

/-- The whitespace set of `isspace` in the C locale, used both by
`operator>>` tokenisation and by `strtol`. -/
def isCppSpace (c : Char) : Bool :=
  c = ' ' || c = '\t' || c = '\n' || c = '\r' || c = '\x0b' || c = '\x0c'

/-- Value of a character as a hexadecimal digit, if it is one. -/
def hexVal (c : Char) : Option Nat :=
  if '0' ≤ c ∧ c ≤ '9' then some (c.toNat - '0'.toNat)
  else if 'a' ≤ c ∧ c ≤ 'f' then some (c.toNat - 'a'.toNat + 10)
  else if 'A' ≤ c ∧ c ≤ 'F' then some (c.toNat - 'A'.toNat + 10)
  else none

/-- Value of a character as a digit in the given base (2, 10 or 16 here). -/
def digitVal (base : Nat) (c : Char) : Option Nat :=
  match hexVal c with
  | some v => if v < base then some v else none
  | none => none

/-- Longest prefix of digits in the given base, with the rest of the input
(the subject-sequence rule of `strtol`). -/
def takeDigits (base : Nat) : List Char → (List Nat × List Char)
  | [] => ([], [])
  | c :: rest =>
    match digitVal base c with
    | some v =>
      let p := takeDigits base rest
      (v :: p.1, p.2)
    | none => ([], c :: rest)

/-- Numeric value of a digit list (most significant first). -/
def digitsToInt (base : Nat) (ds : List Nat) : Int :=
  ds.foldl (fun acc d => acc * (base : Int) + (d : Int)) 0

/-- The `0x`/`0X` prefix rule of `strtol` with base 16: the prefix is part of
the subject sequence only when a hexadecimal digit follows it; otherwise the
subject sequence is just the leading `0`. -/
def strip0x : List Char → List Char
  | '0' :: c :: d :: r =>
    if (c = 'x' ∨ c = 'X') ∧ (digitVal 16 d).isSome then d :: r
    else '0' :: c :: d :: r
  | l => l

/-- Model of `std::stoi(s, nullptr, base)` for bases 2, 10 and 16:
skip C-locale whitespace, read an optional sign, honour the `0x` prefix for
base 16, take the longest digit prefix; no digits raises
`std::invalid_argument`, a converted value outside `int` range raises
`std::out_of_range`. -/
def cppStoi (base : Nat) (s : String) : Except CppExn Int :=
  let cs := s.data.dropWhile (fun c => isCppSpace c)
  let sign : Int := match cs with | '-' :: _ => -1 | _ => 1
  let cs1 : List Char := match cs with | '-' :: r => r | '+' :: r => r | r => r
  let cs2 : List Char := if base = 16 then strip0x cs1 else cs1
  match takeDigits base cs2 with
  | ([], _) => .error .invalidArgument
  | (ds, _) =>
    let v : Int := sign * digitsToInt base ds
    if v < INT_MIN ∨ INT_MAX < v then .error .outOfRange else .ok v

/-- Model of `RiscVSimulator::extract_reg_index` (pipelined variant,
`src/simulator.cpp`): a token not starting with `x` resolves to `-1`;
otherwise `stoi` is tried on the rest, catching only
`std::invalid_argument`; an in-range index is returned, anything else
resolves to `-1`.  `std::out_of_range` escapes. -/
def extract_reg_index (s : String) : Except CppExn Int :=
  match s.data with
  | [] => .ok (-1)
  | c :: rest =>
    if c ≠ 'x' then .ok (-1)
    else
      match cppStoi 10 (String.mk rest) with
      | .ok v => .ok (if 0 ≤ v ∧ v < 32 then v else -1)
      | .error .invalidArgument => .ok (-1)
      | .error .outOfRange => .error .outOfRange

/-- Base selection of `parse_immediate`: hexadecimal for a token of length
`> 2` starting `0x`/`0X`, binary with the prefix stripped for `0b`/`0B`,
decimal otherwise. -/
def selectParse (s : String) : Except CppExn Int :=
  match s.data with
  | '0' :: c :: d :: rest =>
    if c = 'x' ∨ c = 'X' then cppStoi 16 s
    else if c = 'b' ∨ c = 'B' then cppStoi 2 (String.mk (d :: rest))
    else cppStoi 10 s
  | _ => cppStoi 10 s

/-- Model of `RiscVSimulator::parse_immediate` (pipelined variant):
empty token is 0; otherwise parse under the selected base;
`std::invalid_argument` is caught and resolves to 0, `std::out_of_range`
escapes. -/
def parse_immediate (s : String) : Except CppExn Int :=
  if s.data = [] then .ok 0
  else
    match selectParse s with
    | .ok v => .ok v
    | .error .invalidArgument => .ok 0
    | .error .outOfRange => .error .outOfRange

/-- Configuration constant `NUM_CORES` of `src/simulator.cpp`. -/
def NUM_CORES : Nat := 4

/-- Configuration constant `MEMORY_SIZE` of `src/simulator.cpp`. -/
def MEMORY_SIZE : Nat := 4096

/-- The `Instruction` struct of the pipelined simulator. -/
structure Instruction where
  opcode : String
  rd : Int
  rs1 : Int
  rs2 : Int
  imm : Int
  core_id : Int
  pc : Int
deriving DecidableEq

/-- The default-constructed `Instruction()` of the C++ source. -/
def defaultInstruction : Instruction :=
  { opcode := "", rd := -1, rs1 := -1, rs2 := -1, imm := 0, core_id := -1, pc := 0 }

/-- The `Core` struct of the pipelined simulator: 32 registers, a program
counter, the core id and the per-cycle stall flag. -/
structure Core where
  registers : List Int
  pc : Int
  core_id : Int
  stalled : Bool
deriving DecidableEq

/-- The `Core(id)` constructor: all registers zero except `x3 = id`. -/
def mkCore (i : Nat) : Core :=
  { registers := (List.replicate 32 (0 : Int)).set 3 (i : Int)
  , pc := 0, core_id := (i : Int), stalled := false }

/-- The `PipelineStage` struct: an instruction, an occupancy flag and the
latency countdown used by the Execute slot. -/
structure PipelineStage where
  instruction : Instruction
  valid : Bool
  latency_counter : Int
deriving DecidableEq

/-- The default-constructed `PipelineStage()`. -/
def STAGE0 : PipelineStage :=
  { instruction := defaultInstruction, valid := false, latency_counter := 0 }

/-- State of the `RiscVSimulator` object (pipelined variant): cores, the
loaded program text, the five per-core pipeline stage banks, the latency
map, the forwarding flag and the two statistics counters.  The `memory`
vector is modelled separately (see `bubble_sort_memory`): instruction
execution never reads or writes it. -/
structure SimState where
  cores : List Core
  instructions : List String
  fetch_stage : List PipelineStage
  decode_stage : List PipelineStage
  execute_stage : List PipelineStage
  memory_stage : List PipelineStage
  writeback_stage : List PipelineStage
  instruction_latencies : List (String × Int)
  forwarding_enabled : Bool
  total_cycles : Int
  total_stalls : Int
deriving DecidableEq

/-- Read of `instruction_latencies[op]` from the `std::map`: the stored
value, or the value-initialised 0 when the key is absent. -/
def latLookup (l : List (String × Int)) (op : String) : Int :=
  ((l.find? (fun p => p.1 = op)).map (fun p => p.2)).getD 0

/-- The default latency table built by the `RiscVSimulator` constructor. -/
def defaultLatencies : List (String × Int) :=
  [("ADD", 1), ("SUB", 1), ("JAL", 1), ("BNE", 1), ("SWAP", 1)]

/-- `set_instruction_latency`: a `std::map` overwrite, modelled by giving
the new binding precedence over older ones. -/
def set_instruction_latency (l : List (String × Int)) (op : String) (v : Int) :
    List (String × Int) :=
  (op, v) :: l

/-- A `RiscVSimulator` as built by the constructor, after
`load_instructions` produced `prog`, with the forwarding flag and latency
map as configured by the driver. -/
def mkSim (prog : List String) (fwd : Bool) (lat : List (String × Int)) : SimState :=
  { cores := (List.range NUM_CORES).map (fun i => mkCore i)
  , instructions := prog
  , fetch_stage := List.replicate NUM_CORES STAGE0
  , decode_stage := List.replicate NUM_CORES STAGE0
  , execute_stage := List.replicate NUM_CORES STAGE0
  , memory_stage := List.replicate NUM_CORES STAGE0
  , writeback_stage := List.replicate NUM_CORES STAGE0
  , instruction_latencies := lat
  , forwarding_enabled := fwd
  , total_cycles := 0
  , total_stalls := 0 }

/-- `is_valid_register`: index in `[0, 32)`. -/
def is_valid_register (r : Int) : Bool :=
  decide (0 ≤ r ∧ r < 32)

/-- Read `core.registers[r]` (all source reads are guarded by
`is_valid_register`). -/
def regGet (c : Core) (r : Int) : Int :=
  c.registers.getD r.toNat 0

/-- Model of `execute(Instruction&, Core&)` of the pipelined simulator.
Statement-order faithful: note that the `JAL` branch has no `return`, so it
falls through to the default `pc += 4`, unlike `BNE` whose taken/untaken
arms both `return`. -/
def executeInstr (inst : Instruction) (core : Core) : Core :=
  if inst.opcode = "JAL" then
    let c :=
      if is_valid_register inst.rd then
        { core with registers := core.registers.set inst.rd.toNat (inst.pc + 4)
                  , pc := core.pc + inst.imm }
      else core
    { c with pc := c.pc + 4 }
  else if inst.opcode = "BNE" then
    if is_valid_register inst.rd ∧ is_valid_register inst.rs1 then
      if regGet core inst.rd ≠ regGet core inst.rs1 then
        { core with pc := core.pc + inst.imm }
      else
        { core with pc := core.pc + 4 }
    else { core with pc := core.pc + 4 }
  else if inst.opcode = "ADD" then
    let c :=
      if is_valid_register inst.rd ∧ is_valid_register inst.rs1 ∧ is_valid_register inst.rs2 then
        { core with registers :=
            core.registers.set inst.rd.toNat (regGet core inst.rs1 + regGet core inst.rs2) }
      else core
    { c with pc := c.pc + 4 }
  else if inst.opcode = "SUB" then
    let c :=
      if is_valid_register inst.rd ∧ is_valid_register inst.rs1 ∧ is_valid_register inst.rs2 then
        { core with registers :=
            core.registers.set inst.rd.toNat (regGet core inst.rs1 - regGet core inst.rs2) }
      else core
    { c with pc := c.pc + 4 }
  else if inst.opcode = "SWAP" then
    let c :=
      if is_valid_register inst.rs1 ∧ is_valid_register inst.rs2 then
        let a := regGet core inst.rs1
        let b := regGet core inst.rs2
        { core with registers := (core.registers.set inst.rs1.toNat b).set inst.rs2.toNat a }
      else core
    { c with pc := c.pc + 4 }
  else { core with pc := core.pc + 4 }

/-- Whitespace tokenisation of one instruction line, as the chain
`iss >> opcode >> arg1 >> arg2 >> arg3` produces it (a failed extraction
leaves the target string empty). -/
def splitWsGo : List Char → List Char → List String
  | [], acc => if acc = [] then [] else [String.mk acc.reverse]
  | c :: rest, acc =>
    if isCppSpace c then
      if acc = [] then splitWsGo rest []
      else String.mk acc.reverse :: splitWsGo rest []
    else splitWsGo rest (c :: acc)

/-- Split a line into whitespace-separated tokens. -/
def splitWs (s : String) : List String :=
  splitWsGo s.data []

/-- The parsing part of `fetch`: tokenize the line, extract `rd`, `rs1`,
`rs2` from fields 1..3 and the immediate from field 3 (the source reads
`parse_immediate(arg3)` for every opcode). -/
def parseInstruction (line : String) (cid : Int) (pc : Int) : Except CppExn Instruction :=
  let ts := splitWs line
  let opcode := ts.getD 0 ""
  let arg1 := ts.getD 1 ""
  let arg2 := ts.getD 2 ""
  let arg3 := ts.getD 3 ""
  match extract_reg_index arg1 with
  | .error e => .error e
  | .ok rd =>
    match extract_reg_index arg2 with
    | .error e => .error e
    | .ok rs1 =>
      match extract_reg_index arg3 with
      | .error e => .error e
      | .ok rs2 =>
        match parse_immediate arg3 with
        | .error e => .error e
        | .ok imm =>
          .ok { opcode := opcode, rd := rd, rs1 := rs1, rs2 := rs2
              , imm := imm, core_id := cid, pc := pc }

/-- The test `core.pc / 4 < instructions.size()`: C++ `int` division
truncates toward zero, and the signed-to-`size_t` conversion makes any
negative quotient compare as an enormous unsigned value, hence false. -/
def fetchInRange (s : SimState) (core : Core) : Bool :=
  let idx := Int.tdiv core.pc 4
  decide (0 ≤ idx) && decide (idx.toNat < s.instructions.length)

/-- Model of `fetch(Core&)`: parse `instructions[pc / 4]`, or return the
default instruction when the program is exhausted. -/
def fetchInstr (s : SimState) (core : Core) : Except CppExn Instruction :=
  if fetchInRange s core then
    parseInstruction (s.instructions.getD (Int.tdiv core.pc 4).toNat "") core.core_id core.pc
  else .ok defaultInstruction

/-- Model of `check_data_hazards(Core&)`: only when the Decode slot is
occupied, compare its `rs1`/`rs2` with the `rd` of the occupants of
Execute, Memory and Writeback in that order; a match with forwarding
disabled increments the process-wide stall counter and reports a stall. -/
def check_data_hazards (s : SimState) (core : Core) : Bool × SimState :=
  let id := core.core_id.toNat
  let de := s.decode_stage.getD id STAGE0
  if ¬ de.valid then (false, s)
  else
    let ex := s.execute_stage.getD id STAGE0
    if ex.valid ∧ ex.instruction.rd ≠ -1 ∧
        (de.instruction.rs1 = ex.instruction.rd ∨ de.instruction.rs2 = ex.instruction.rd) ∧
        s.forwarding_enabled = false then
      (true, { s with total_stalls := s.total_stalls + 1 })
    else
      let me := s.memory_stage.getD id STAGE0
      if me.valid ∧ me.instruction.rd ≠ -1 ∧
          (de.instruction.rs1 = me.instruction.rd ∨ de.instruction.rs2 = me.instruction.rd) ∧
          s.forwarding_enabled = false then
        (true, { s with total_stalls := s.total_stalls + 1 })
      else
        let wb := s.writeback_stage.getD id STAGE0
        if wb.valid ∧ wb.instruction.rd ≠ -1 ∧
            (de.instruction.rs1 = wb.instruction.rd ∨ de.instruction.rs2 = wb.instruction.rd) ∧
            s.forwarding_enabled = false then
          (true, { s with total_stalls := s.total_stalls + 1 })
        else (false, s)

/-- First half of a forwarding block: if the Decode occupant's `rs1`
matches the producing stage's `rd`, re-assign it that same `rd` (the
source forwards the register index, not a value). -/
def setRs1 (s : SimState) (id : Nat) (rd : Int) : SimState :=
  let de := s.decode_stage.getD id STAGE0
  if de.instruction.rs1 = rd then
    { s with decode_stage :=
        s.decode_stage.set id { de with instruction := { de.instruction with rs1 := rd } } }
  else s

/-- Second half of a forwarding block, for `rs2`. -/
def setRs2 (s : SimState) (id : Nat) (rd : Int) : SimState :=
  let de := s.decode_stage.getD id STAGE0
  if de.instruction.rs2 = rd then
    { s with decode_stage :=
        s.decode_stage.set id { de with instruction := { de.instruction with rs2 := rd } } }
  else s

/-- One source block of `perform_data_forwarding`: against a stage whose
occupant has destination `rd`, each matching operand index of the Decode
instruction is re-assigned in place. -/
def fwdUpdate (s : SimState) (id : Nat) (rd : Int) : SimState :=
  setRs2 (setRs1 s id rd) id rd

/-- Model of `perform_data_forwarding(Core&)`: when the Decode slot is
occupied, run the index re-assignment against Execute, then Memory, then
Writeback. -/
def perform_data_forwarding (s : SimState) (core : Core) : SimState :=
  let id := core.core_id.toNat
  let de := s.decode_stage.getD id STAGE0
  if ¬ de.valid then s
  else
    let ex := s.execute_stage.getD id STAGE0
    let s1 := if ex.valid ∧ ex.instruction.rd ≠ -1 then fwdUpdate s id ex.instruction.rd else s
    let me := s1.memory_stage.getD id STAGE0
    let s2 := if me.valid ∧ me.instruction.rd ≠ -1 then fwdUpdate s1 id me.instruction.rd else s1
    let wb := s2.writeback_stage.getD id STAGE0
    if wb.valid ∧ wb.instruction.rd ≠ -1 then fwdUpdate s2 id wb.instruction.rd else s2

/-- A core that can never be read: `cores` always has exactly `NUM_CORES`
entries and every index used is in range. -/
def dummyCore : Core := mkCore 0

/-- The Writeback block of a cycle: retire the occupant (the `writeback`
function itself is an empty placeholder) and clear the slot. -/
def wbStep (s : SimState) (core : Core) : SimState :=
  let id := core.core_id.toNat
  let wb := s.writeback_stage.getD id STAGE0
  if wb.valid then
    { s with writeback_stage := s.writeback_stage.set id { wb with valid := false } }
  else s

/-- The Memory block of a cycle: `memory_access` is a placeholder; the
occupant moves unchanged to Writeback and the Memory slot is cleared. -/
def memStageStep (s : SimState) (core : Core) : SimState :=
  let id := core.core_id.toNat
  let me := s.memory_stage.getD id STAGE0
  if me.valid then
    let s1 := { s with writeback_stage := s.writeback_stage.set id me }
    { s1 with memory_stage := s1.memory_stage.set id { me with valid := false } }
  else s

/-- The Execute block of a cycle: an occupant with more than one remaining
latency cycle merely counts down; otherwise its semantic effect is applied
to the core and it moves to the Memory slot. -/
def exStep (s : SimState) (core : Core) : SimState × Core :=
  let id := core.core_id.toNat
  let ex := s.execute_stage.getD id STAGE0
  if ex.valid then
    if ex.latency_counter > 1 then
      ({ s with execute_stage :=
          s.execute_stage.set id { ex with latency_counter := ex.latency_counter - 1 } }, core)
    else
      let core1 := executeInstr ex.instruction core
      let s1 := { s with memory_stage := s.memory_stage.set id ex }
      ({ s1 with execute_stage := s1.execute_stage.set id { ex with valid := false } }, core1)
  else (s, core)

/-- The Decode block of a cycle: run the forwarding unit when enabled, then
promote the occupant to Execute, initialising the latency counter from the
latency table, and clear the Decode slot. -/
def deStep (s : SimState) (core : Core) : SimState :=
  let id := core.core_id.toNat
  if (s.decode_stage.getD id STAGE0).valid then
    let s1 := if s.forwarding_enabled then perform_data_forwarding s core else s
    let de := s1.decode_stage.getD id STAGE0
    let newEx := { de with
        latency_counter := latLookup s1.instruction_latencies de.instruction.opcode }
    let s2 := { s1 with execute_stage := s1.execute_stage.set id newEx }
    { s2 with decode_stage := s2.decode_stage.set id { de with valid := false } }
  else s

/-- The Fetch block of a cycle: when the Fetch slot is occupied, consult
the hazard unit; a stall sets the core's flag and leaves the slot queued
(the C++ `continue`), otherwise the occupant moves to Decode. -/
def feStep (s : SimState) (core : Core) : SimState × Core :=
  let id := core.core_id.toNat
  let fe := s.fetch_stage.getD id STAGE0
  if fe.valid then
    let p := check_data_hazards s core
    if p.1 then (p.2, { core with stalled := true })
    else
      let s2 := { p.2 with decode_stage := p.2.decode_stage.set id fe }
      ({ s2 with fetch_stage := s2.fetch_stage.set id { fe with valid := false } },
       { core with stalled := false })
  else (s, core)

/-- The trailing fetch of a cycle: when the core is not stalled and program
text remains, parse a new instruction into the Fetch slot and advance the
PC by 4 immediately. -/
def fetchNew (s : SimState) (core : Core) : Except CppExn (SimState × Core) :=
  let id := core.core_id.toNat
  if core.stalled = false ∧ fetchInRange s core then
    match fetchInstr s core with
    | .error e => .error e
    | .ok inst =>
      let fe := s.fetch_stage.getD id STAGE0
      .ok ({ s with fetch_stage :=
              s.fetch_stage.set id { fe with instruction := inst, valid := true } },
           { core with pc := core.pc + 4 })
  else .ok (s, core)

/-- Write the (by-reference mutated) core back into the core vector. -/
def writeCore (s : SimState) (i : Nat) (c : Core) : SimState :=
  { s with cores := s.cores.set i c }

/-- The activity test of the cycle loop: the core still has program text to
fetch or any of its five slots is occupied. -/
def coreActive (s : SimState) (core : Core) : Bool :=
  let id := core.core_id.toNat
  fetchInRange s core
    || (s.fetch_stage.getD id STAGE0).valid
    || (s.decode_stage.getD id STAGE0).valid
    || (s.execute_stage.getD id STAGE0).valid
    || (s.memory_stage.getD id STAGE0).valid
    || (s.writeback_stage.getD id STAGE0).valid

/-- One core's share of a cycle: Writeback, Memory, Execute, Decode and
Fetch blocks in that order, then the trailing fetch; returns whether the
core counted as active. -/
def cycleCore (s : SimState) (i : Nat) : Except CppExn (SimState × Bool) :=
  let core := s.cores.getD i dummyCore
  if coreActive s core then
    let s1 := wbStep s core
    let s2 := memStageStep s1 core
    let p3 := exStep s2 core
    let s4 := deStep p3.1 p3.2
    let p5 := feStep s4 p3.2
    match fetchNew p5.1 p5.2 with
    | .error e => .error e
    | .ok p6 => .ok (writeCore p6.1 i p6.2, true)
  else .ok (s, false)

/-- Iterate `cycleCore` over the core indices (the `for (auto &core :
cores)` loop), accumulating the `cores_active` flag. -/
def cycleCores (s : SimState) (idxs : List Nat) (act : Bool) : Except CppExn (SimState × Bool) :=
  match idxs with
  | [] => .ok (s, act)
  | i :: rest =>
    match cycleCore s i with
    | .error e => .error e
    | .ok p => cycleCores p.1 rest (act || p.2)

/-- One full iteration of the `while (cores_active)` loop body:
`total_cycles++`, then every core's pipeline blocks. -/
def cycleAll (s : SimState) : Except CppExn (SimState × Bool) :=
  cycleCores { s with total_cycles := s.total_cycles + 1 } (List.range s.cores.length) false

/-- Model of `execute()`: run cycle-loop iterations until no core is
active.  `none` means the fuel ran out before the loop exited (the C++
loop can run forever, e.g. on a backward branch); `some s` is the state in
which `execute()` halts and prints its statistics. -/
def execLoop : Nat → SimState → Except CppExn (Option SimState)
  | 0, _ => .ok none
  | n + 1, s =>
    match cycleAll s with
    | .error e => .error e
    | .ok (s1, active) => if active then execLoop n s1 else .ok (some s1)

/-- Total stall count reported at halt, when the run halts. -/
def stallsOf (r : Except CppExn (Option SimState)) : Option Int :=
  match r with
  | .ok (some s) => some s.total_stalls
  | _ => none

/-- Total cycle count reported at halt, when the run halts. -/
def cyclesOf (r : Except CppExn (Option SimState)) : Option Int :=
  match r with
  | .ok (some s) => some s.total_cycles
  | _ => none

/-- Register `reg` of core `i` at halt, when the run halts. -/
def regOf (r : Except CppExn (Option SimState)) (i : Nat) (reg : Nat) : Option Int :=
  match r with
  | .ok (some s) => some ((s.cores.getD i dummyCore).registers.getD reg 0)
  | _ => none

/-- Immediate field of a parsed instruction, when parsing succeeds. -/
def immOf (r : Except CppExn Instruction) : Option Int :=
  match r with
  | .ok i => some i.imm
  | .error _ => none

/-- One comparison/swap of the inner loop of `bubble_sort_memory`:
`if (memory[j] > memory[j+1]) swap(memory[j], memory[j+1])`.  The memory
vector is modelled as a function from addresses to words. -/
def memSwapStep (mem : Nat → Int) (j : Nat) : Nat → Int :=
  if mem j > mem (j + 1) then
    fun k => if k = j then mem (j + 1) else if k = j + 1 then mem j else mem k
  else mem

/-- The inner `for (j = start_idx; j < stop; j++)` loop, with fuel equal to
its exact trip count. -/
def innerLoopF : Nat → (Nat → Int) → Nat → Nat → (Nat → Int)
  | 0, mem, _, _ => mem
  | n + 1, mem, j, stop =>
    if j < stop then innerLoopF n (memSwapStep mem j) (j + 1) stop else mem

/-- One full inner pass of `bubble_sort_memory`, from `j = start` while
`j < stop`. -/
def innerLoop (mem : Nat → Int) (start stop : Nat) : Nat → Int :=
  innerLoopF (stop - start) mem start stop

/-- The outer `for (i = start_idx; i < end_idx - 1; i++)` loop of
`bubble_sort_memory`, with fuel equal to its exact trip count; the inner
bound is `end_idx - (i - start_idx) - 1` as in the source. -/
def outerLoopF : Nat → (Nat → Int) → Nat → Nat → Nat → (Nat → Int)
  | 0, mem, _, _, _ => mem
  | n + 1, mem, start, e, i =>
    if i < e - 1 then outerLoopF n (innerLoop mem start (e - (i - start) - 1)) start e (i + 1)
    else mem

/-- Model of `bubble_sort_memory(Core&)`: bubble sort of the core's own
partition `[core_id * (MEMORY_SIZE/NUM_CORES), (core_id+1) *
(MEMORY_SIZE/NUM_CORES))` of the shared memory vector. -/
def bubble_sort_memory (core_id : Nat) (mem : Nat → Int) : Nat → Int :=
  let start := core_id * (MEMORY_SIZE / NUM_CORES)
  let e := start + MEMORY_SIZE / NUM_CORES
  outerLoopF ((e - 1) - start) mem start e start

/-- Model of `sort_memory()`: each core in order sorts its own partition. -/
def sort_memory (mem : Nat → Int) : Nat → Int :=
  (List.range NUM_CORES).foldl (fun m i => bubble_sort_memory i m) mem

/-- Concrete JAL instruction of the spec's test vector: `rd = 2`,
`imm = 12`, fetched at PC 8. -/
def jalInst : Instruction :=
  { opcode := "JAL", rd := 2, rs1 := -1, rs2 := -1, imm := 12, core_id := 0, pc := 8 }

/-- Core 0 with PC 8, about to execute `jalInst`. -/
def jalCore : Core :=
  { mkCore 0 with pc := 8 }

/-- The instruction `fetch` builds from the line `BNE x1 x2 8`. -/
def bneInst : Instruction :=
  { opcode := "BNE", rd := 1, rs1 := 2, rs2 := -1, imm := 8, core_id := 0, pc := 0 }

/-- The hazard pair of the spec's test vector. -/
def hazardProg : List String := ["ADD x4 x1 x2", "SUB x5 x4 x3"]

/-- A dependent pair whose first effect is observable: for core `i`,
`ADD x4 x3 x3` should set `x4 = 2 i`, then `SUB x5 x3 x3` sets `x5 = 0`. -/
def latencyProg : List String := ["ADD x4 x3 x3", "SUB x5 x3 x3"]

/-- The latency overrides applied by `main()`:
`set_instruction_latency("ADD", 2); set_instruction_latency("SUB", 2)`. -/
def mainLatencies : List (String × Int) :=
  set_instruction_latency (set_instruction_latency defaultLatencies "ADD" 2) "SUB" 2

/-- A one-instruction run used to exhibit a halting execution. -/
def swapRun : Except CppExn (Option SimState) :=
  execLoop 8 (mkSim ["SWAP x1 x2"] true defaultLatencies)

/-- The halt state of `swapRun`. -/
def swapFinal : SimState :=
  match swapRun with
  | .ok (some s) => s
  | _ => mkSim [] true defaultLatencies

/-- A concrete, strictly decreasing memory used to witness the sorting
theorem. -/
def memW : Nat → Int := fun k => (2048 : Int) - (k : Int)

/-- Classification of every possible result of `extract_reg_index`: a
normal return is `-1` or a valid index, and the only escaping exception is
`std::out_of_range`. -/
def regResultOk : Except CppExn Int → Prop
  | .ok v => v = -1 ∨ (0 ≤ v ∧ v < 32)
  | .error e => e = CppExn.outOfRange

/-- Classification of every possible result of `parse_immediate`: the only
escaping exception is `std::out_of_range`. -/
def immResultOk : Except CppExn Int → Prop
  | .ok _ => True
  | .error e => e = CppExn.outOfRange

/-- The contents of the address window `[lo, lo+len)` of a memory, as a
list of words, used to state that sorting rearranges the partition's words
rather than replacing them. -/
def seg (mem : Nat → Int) (lo len : Nat) : List Int :=
  (List.range len).map (fun t => mem (lo + t))

/-- Sortedness bookkeeping for the bubble-sort proof: positions `[b, e)`
are already in ascending order and dominate every position of `[s, b)`. -/
def SortedFrom (mem : Nat → Int) (s e b : Nat) : Prop :=
  (∀ p q, b ≤ p → p ≤ q → q < e → mem p ≤ mem q) ∧
  (∀ p q, s ≤ p → p < b → b ≤ q → q < e → mem p ≤ mem q)

/-! ## Helper lemmas -/

/-- Writing back the element just read leaves a list unchanged. -/
theorem listSet_getD_self {α : Type} (l : List α) (i : Nat) (d : α) :
    l.set i (l.getD i d) = l := by
  induction l generalizing i with
  | nil => rfl
  | cons a t ih =>
    cases i with
    | zero => rfl
    | succ n =>
      have := ih n
      simp only [List.set_cons_succ, List.cons.injEq, List.getD_cons_succ]
      exact ⟨trivial, this⟩

/-- Reading back a written position yields the written value when the index
is in range, and the default otherwise. -/
theorem listGetD_set {α : Type} (l : List α) (i : Nat) (v d : α) :
    (l.set i v).getD i d = if i < l.length then v else d := by
  induction l generalizing i with
  | nil => simp
  | cons a t ih =>
    cases i with
    | zero => simp
    | succ n => simpa using ih n

/-- The `rs1` re-assignment of the forwarding unit is the identity: it only
ever writes the value it just compared equal. -/
theorem setRs1_id (s : SimState) (id : Nat) (rd : Int) : setRs1 s id rd = s := by
  simp only [setRs1]
  split
  next h =>
    rw [← h]
    show { s with decode_stage := s.decode_stage.set id (s.decode_stage.getD id STAGE0) } = s
    rw [listSet_getD_self]
  next => rfl

/-- The `rs2` re-assignment of the forwarding unit is the identity. -/
theorem setRs2_id (s : SimState) (id : Nat) (rd : Int) : setRs2 s id rd = s := by
  simp only [setRs2]
  split
  next h =>
    rw [← h]
    show { s with decode_stage := s.decode_stage.set id (s.decode_stage.getD id STAGE0) } = s
    rw [listSet_getD_self]
  next => rfl

/-- One whole forwarding block is the identity. -/
theorem fwdUpdate_id (s : SimState) (id : Nat) (rd : Int) : fwdUpdate s id rd = s := by
  simp [fwdUpdate, setRs1_id, setRs2_id]

/-- The forwarding unit as a whole is the identity on the simulator
state. -/
theorem pdf_id (s : SimState) (core : Core) : perform_data_forwarding s core = s := by
  simp [perform_data_forwarding, fwdUpdate_id]

/-- The Writeback block never touches the stall counter. -/
theorem wbStep_stalls (s : SimState) (c : Core) :
    (wbStep s c).total_stalls = s.total_stalls := by
  simp only [wbStep]
  split <;> rfl

/-- The Memory block never touches the stall counter. -/
theorem memStageStep_stalls (s : SimState) (c : Core) :
    (memStageStep s c).total_stalls = s.total_stalls := by
  simp only [memStageStep]
  split <;> rfl

/-- The Execute block never touches the stall counter. -/
theorem exStep_stalls (s : SimState) (c : Core) :
    (exStep s c).1.total_stalls = s.total_stalls := by
  simp only [exStep]
  split
  · split <;> rfl
  · rfl

/-- The Decode block never touches the stall counter. -/
theorem deStep_stalls (s : SimState) (c : Core) :
    (deStep s c).total_stalls = s.total_stalls := by
  simp only [deStep, pdf_id, ite_self]
  split <;> rfl

/-- After the Decode block of a cycle, the core's Decode slot is always
empty: either it was empty already, or it was just promoted and cleared. -/
theorem deStep_decode_invalid (s : SimState) (c : Core) :
    ((deStep s c).decode_stage.getD c.core_id.toNat STAGE0).valid = false := by
  simp only [deStep, pdf_id, ite_self]
  split
  next h =>
    rw [listGetD_set]
    split
    · rfl
    · rfl
  next h => simpa using h

/-- With an empty Decode slot the hazard unit reports no stall and leaves
the state untouched. -/
theorem check_data_hazards_invalid (s : SimState) (c : Core)
    (h : ((s.decode_stage.getD c.core_id.toNat STAGE0)).valid = false) :
    check_data_hazards s c = (false, s) := by
  simp only [List.getD_eq_getElem?_getD] at h
  simp [check_data_hazards, h]

/-- Given an empty Decode slot, the Fetch block never touches the stall
counter. -/
theorem feStep_stalls (s : SimState) (c : Core)
    (h : ((s.decode_stage.getD c.core_id.toNat STAGE0)).valid = false) :
    (feStep s c).1.total_stalls = s.total_stalls := by
  simp only [feStep, check_data_hazards_invalid s c h]
  split <;> rfl

/-- The trailing fetch never touches the stall counter. -/
theorem fetchNew_stalls (s : SimState) (c : Core) (p : SimState × Core)
    (h : fetchNew s c = .ok p) : p.1.total_stalls = s.total_stalls := by
  simp only [fetchNew] at h
  split at h
  · split at h
    · cases h
    · cases h
      rfl
  · cases h
    rfl

/-- One core's cycle never changes the stall counter: by the time the
hazard unit could fire, the same cycle's Decode block has already emptied
the Decode slot. -/
theorem cycleCore_stalls (s : SimState) (i : Nat) (p : SimState × Bool)
    (h : cycleCore s i = .ok p) : p.1.total_stalls = s.total_stalls := by
  simp only [cycleCore] at h
  split at h
  case isTrue hact =>
    split at h
    case h_1 e heq => cases h
    case h_2 p6 heq =>
      cases h
      have h1 := wbStep_stalls s (s.cores.getD i dummyCore)
      have h2 := memStageStep_stalls (wbStep s (s.cores.getD i dummyCore)) (s.cores.getD i dummyCore)
      have h3 := exStep_stalls (memStageStep (wbStep s (s.cores.getD i dummyCore)) (s.cores.getD i dummyCore)) (s.cores.getD i dummyCore)
      set core := s.cores.getD i dummyCore with hcore
      set p3 := exStep (memStageStep (wbStep s core) core) core with hp3
      have h4 := deStep_stalls p3.1 p3.2
      have h5 := feStep_stalls (deStep p3.1 p3.2) p3.2 (deStep_decode_invalid p3.1 p3.2)
      have h6 := fetchNew_stalls (feStep (deStep p3.1 p3.2) p3.2).1 (feStep (deStep p3.1 p3.2) p3.2).2 p6 heq
      simp only [writeCore]
      omega
  case isFalse hact =>
    cases h
    rfl

/-- The per-core loop of a cycle never changes the stall counter. -/
theorem cycleCores_stalls (idxs : List Nat) : ∀ (s : SimState) (act : Bool) (p : SimState × Bool),
    cycleCores s idxs act = .ok p → p.1.total_stalls = s.total_stalls := by
  induction idxs with
  | nil =>
    intro s act p h
    cases h
    rfl
  | cons i rest ih =>
    intro s act p h
    simp only [cycleCores] at h
    split at h
    · cases h
    case h_2 q heq =>
      have := cycleCore_stalls s i q heq
      have := ih q.1 (act || q.2) p h
      omega

/-- A full cycle never changes the stall counter. -/
theorem cycleAll_stalls (s : SimState) (p : SimState × Bool)
    (h : cycleAll s = .ok p) : p.1.total_stalls = s.total_stalls := by
  have := cycleCores_stalls (List.range s.cores.length)
    { s with total_cycles := s.total_cycles + 1 } false p h
  simpa using this

/-- A halting run reports the stall counter it started with. -/
theorem execLoop_stalls : ∀ (n : Nat) (s : SimState) (s' : SimState),
    execLoop n s = .ok (some s') → s'.total_stalls = s.total_stalls := by
  intro n
  induction n with
  | zero =>
    intro s s' h
    cases h
  | succ n ih =>
    intro s s' h
    simp only [execLoop] at h
    split at h
    · cases h
    case h_2 s1 active heq =>
      have hq := cycleAll_stalls s (s1, active) heq
      split at h
      · have := ih s1 s' h
        simp only at hq
        omega
      · cases h
        simp only at hq
        omega

/-! ## Claim theorems -/

/-- C1: for the pair `ADD x4 x1 x2; SUB x5 x4 x3` with default latencies,
the run halts with a reported stall total of 0 both with forwarding
disabled and with it enabled.  The claim (and the spec) say that with
forwarding disabled exactly one stall is recorded; the code's hazard unit
can never fire because the Decode slot has always been drained by the same
cycle's Decode block before `check_data_hazards` inspects it. -/
theorem c1_hazard_pair_stall_counts :
    stallsOf (execLoop 12 (mkSim hazardProg false defaultLatencies)) = some 0 ∧
    stallsOf (execLoop 12 (mkSim hazardProg true defaultLatencies)) = some 0 :=
  ⟨by decide, by decide⟩

/-- C2 counterexample: executing the spec's JAL test vector (`rd = 2`,
`imm = 12`, fetched at PC 8, core PC 8) does not produce
`registers[2] = 20` and `pc = 20`: the code stores `8 + 4 = 12` as the
return address and, lacking a `return`, also applies the default increment,
leaving `pc = 8 + 12 + 4 = 24`. -/
theorem c2_jal_counterexample :
    ¬ (((executeInstr jalInst jalCore).registers.getD 2 0 = 20) ∧
       (executeInstr jalInst jalCore).pc = 20) := by
  decide

/-- C2 amended: a JAL with a valid destination register stores the
fetch-time PC plus 4 in `registers[rd]`, adds the immediate to the core PC,
and then additionally falls through to the default increment of 4. -/
theorem c2_jal_semantics (inst : Instruction) (core : Core)
    (hop : inst.opcode = "JAL") (hrd : is_valid_register inst.rd = true) :
    executeInstr inst core =
      { core with registers := core.registers.set inst.rd.toNat (inst.pc + 4)
                , pc := core.pc + inst.imm + 4 } := by
  simp [executeInstr, hop, hrd]

/-- Witness for `c2_jal_semantics` at the spec's test vector. -/
theorem c2_jal_semantics_witness :
    executeInstr jalInst jalCore =
      { jalCore with registers := jalCore.registers.set jalInst.rd.toNat (jalInst.pc + 4)
                   , pc := jalCore.pc + jalInst.imm + 4 } :=
  c2_jal_semantics jalInst jalCore rfl (by decide)

/-- C3: with the latency overrides of `main()` (`ADD` and `SUB` both 2
cycles), core 1 finishes the program `ADD x4 x3 x3; SUB x5 x3 x3` with
`x4 = 0`: the ADD occupying the Execute slot mid-countdown is overwritten
by the promoted SUB, so its effect (`x4 = x3 + x3 = 2`) is never applied.
With the default 1-cycle latencies the same program does set `x4 = 2`. -/
theorem c3_latency_loses_instruction :
    regOf (execLoop 12 (mkSim latencyProg true mainLatencies)) 1 4 = some 0 ∧
    regOf (execLoop 12 (mkSim latencyProg true defaultLatencies)) 1 4 = some 2 :=
  ⟨by decide, by decide⟩

/-- C4 counterexample: the fetch stage does not read a JAL's immediate from
the second whitespace field: for the line `JAL x2 12` the decoded immediate
is 0 (from the empty third field), not 12. -/
theorem c4_jal_imm_counterexample :
    ¬ immOf (parseInstruction "JAL x2 12" 0 0) = some 12 := by
  decide

/-- C4 amended: instruction decoding reads the immediate from the third
whitespace-separated field for every opcode — `BNE x1 x2 8` decodes to
`imm = 8`, but `JAL x2 12` decodes to `imm = 0` because its third field is
absent. -/
theorem c4_imm_always_third_field :
    (∀ (line : String) (cid pc : Int) (inst : Instruction),
        parseInstruction line cid pc = .ok inst →
        parse_immediate ((splitWs line).getD 3 "") = .ok inst.imm) ∧
    immOf (parseInstruction "JAL x2 12" 0 0) = some 0 ∧
    immOf (parseInstruction "BNE x1 x2 8" 0 0) = some 8 := by
  refine ⟨?_, by decide, by decide⟩
  intro line cid pc inst h
  simp only [parseInstruction] at h
  split at h
  next => cases h
  next rd h1 =>
    split at h
    next => cases h
    next rs1 h2 =>
      split at h
      next => cases h
      next rs2 h3 =>
        split at h
        next => cases h
        next imm h4 =>
          cases h
          simpa [List.getD_eq_getElem?_getD] using h4

/-- Witness for the universally quantified part of
`c4_imm_always_third_field`, at the line `BNE x1 x2 8`. -/
theorem c4_imm_always_third_field_witness :
    parse_immediate ((splitWs "BNE x1 x2 8").getD 3 "") = .ok bneInst.imm :=
  c4_imm_always_third_field.1 "BNE x1 x2 8" 0 0 bneInst (by decide)

/-- C5: the reference forwarding unit is observationally the identity on
the simulator state: every assignment it can make re-writes the operand
index it just compared equal, so `rs1`, `rs2` and all other pipeline and
core state are left exactly as they were. -/
theorem c5_forwarding_is_identity (s : SimState) (core : Core) :
    perform_data_forwarding s core = s :=
  pdf_id s core

/-- C6 counterexample: register-token parsing can raise: a token whose
digit suffix exceeds the `int` range makes `std::stoi` throw
`std::out_of_range`, which the `catch (const invalid_argument&)` clause
does not catch. -/
theorem c6_reg_token_counterexample :
    extract_reg_index "x9999999999" = .error CppExn.outOfRange := by
  decide

/-- C6 amended: `x5` resolves to 5 and `x32`, `x-1`, `abc` resolve to the
invalid sentinel -1; every normal return is either -1 or a valid index,
and the only exception that can escape is `std::out_of_range` (for a digit
suffix outside `int` range) — `std::invalid_argument` is always caught. -/
theorem c6_reg_token_parsing :
    extract_reg_index "x5" = .ok 5 ∧
    extract_reg_index "x32" = .ok (-1) ∧
    extract_reg_index "x-1" = .ok (-1) ∧
    extract_reg_index "abc" = .ok (-1) ∧
    ∀ s : String, regResultOk (extract_reg_index s) := by
  refine ⟨by decide, by decide, by decide, by decide, ?_⟩
  intro s
  rcases hs : s.data with _ | ⟨c, rest⟩
  · simp [extract_reg_index, hs, regResultOk]
  · simp only [extract_reg_index, hs]
    split
    · simp [regResultOk]
    · cases hst : cppStoi 10 (String.mk rest) with
      | ok v =>
        simp only [hst, regResultOk]
        split
        next hv => exact Or.inr hv
        next => exact Or.inl rfl
      | error e =>
        cases e <;> simp [hst, regResultOk]

/-- C7 counterexample: immediate parsing can raise: a token whose value
exceeds the `int` range makes `std::stoi` throw `std::out_of_range`,
which is not caught. -/
theorem c7_imm_token_counterexample :
    parse_immediate "9999999999" = .error CppExn.outOfRange := by
  decide

/-- C7 amended: base selection and the given examples are as stated
(`0x1A` is 26, `0b101` is 5, `123` is 123, the empty token is 0, garbage
is 0), and every `std::invalid_argument` failure resolves to 0; but the
only exception that can escape — and one can, for tokens whose value
overflows `int` — is `std::out_of_range`. -/
theorem c7_imm_token_parsing :
    parse_immediate "0x1A" = .ok 26 ∧
    parse_immediate "0b101" = .ok 5 ∧
    parse_immediate "123" = .ok 123 ∧
    parse_immediate "" = .ok 0 ∧
    parse_immediate "garbage" = .ok 0 ∧
    ∀ s : String, immResultOk (parse_immediate s) := by
  refine ⟨by decide, by decide, by decide, by decide, by decide, ?_⟩
  intro s
  simp only [parse_immediate]
  split
  · simp [immResultOk]
  · cases hr : selectParse s with
    | ok v => simp [hr, immResultOk]
    | error e => cases e <;> simp [hr, immResultOk]

/-- C9 counterexample: with an empty instruction sequence the reported
total cycle count is not 0 (the idle-discovery iteration still increments
`total_cycles`). -/
theorem c9_empty_program_counterexample :
    ¬ cyclesOf (execLoop 5 (mkSim [] true defaultLatencies)) = some 0 := by
  decide

/-- C9 amended: with an empty instruction sequence, `execute()` halts
immediately leaving every core's registers and PC — indeed the entire
simulator state — unchanged, except that the reported total cycle count is
1: the single cycle in which all cores are found idle. -/
theorem c9_empty_program_idle (n : Nat) (fwd : Bool) (lat : List (String × Int)) :
    execLoop (n + 1) (mkSim [] fwd lat) =
      .ok (some { mkSim [] fwd lat with total_cycles := 1 }) := by
  rfl

/-- C10: for every program, forwarding setting and latency table, a
halting run of `execute()` reports a total stall count of 0: the Decode
slot is always drained before the hazard check runs, so
`check_data_hazards` never fires. -/
theorem c10_stalls_always_zero (prog : List String) (fwd : Bool)
    (lat : List (String × Int)) (n : Nat) (s' : SimState)
    (h : execLoop n (mkSim prog fwd lat) = .ok (some s')) :
    s'.total_stalls = 0 := by
  have := execLoop_stalls n (mkSim prog fwd lat) s' h
  simpa [mkSim] using this

/-- Witness for `c10_stalls_always_zero`: a concrete halting run. -/
theorem c10_stalls_always_zero_witness :
    execLoop 8 (mkSim ["SWAP x1 x2"] true defaultLatencies) = .ok (some swapFinal) ∧
    swapFinal.total_stalls = 0 :=
  ⟨by decide, c10_stalls_always_zero ["SWAP x1 x2"] true defaultLatencies 8 swapFinal (by decide)⟩

/-! ## Bubble sort lemmas (towards C8) -/

/-- A comparison step leaves every position other than `j` and `j+1`
unchanged. -/
theorem memSwapStep_other (mem : Nat → Int) (j k : Nat) (h1 : k ≠ j) (h2 : k ≠ j + 1) :
    memSwapStep mem j k = mem k := by
  simp only [memSwapStep]
  split
  · simp [h1, h2]
  · rfl

/-- After a comparison step, position `j` holds one of the two compared
values. -/
theorem memSwapStep_j_cases (mem : Nat → Int) (j : Nat) :
    memSwapStep mem j j = mem j ∨ memSwapStep mem j j = mem (j + 1) := by
  simp only [memSwapStep]
  split
  · right; simp
  · left; rfl

/-- After a comparison step, position `j+1` holds one of the two compared
values. -/
theorem memSwapStep_j1_cases (mem : Nat → Int) (j : Nat) :
    memSwapStep mem j (j + 1) = mem j ∨ memSwapStep mem j (j + 1) = mem (j + 1) := by
  simp only [memSwapStep]
  split
  · left
    have h : j + 1 ≠ j := by omega
    simp [h]
  · right; rfl

/-- A comparison step orders the pair it touches. -/
theorem memSwapStep_le (mem : Nat → Int) (j : Nat) :
    memSwapStep mem j j ≤ memSwapStep mem j (j + 1) := by
  simp only [memSwapStep]
  split
  next hgt =>
    have h : j + 1 ≠ j := by omega
    simp [h]
    exact le_of_lt hgt
  next hle =>
    exact le_of_not_lt hle

/-- Position `j` never exceeds the larger of the compared pair. -/
theorem le_memSwapStep_j1_left (mem : Nat → Int) (j : Nat) :
    mem j ≤ memSwapStep mem j (j + 1) := by
  simp only [memSwapStep]
  split
  next hgt =>
    have h : j + 1 ≠ j := by omega
    simp [h]
  next hle =>
    exact le_of_not_lt hle

/-- Position `j+1` never exceeds the larger of the compared pair. -/
theorem le_memSwapStep_j1_right (mem : Nat → Int) (j : Nat) :
    mem (j + 1) ≤ memSwapStep mem j (j + 1) := by
  simp only [memSwapStep]
  split
  next hgt =>
    have h : j + 1 ≠ j := by omega
    simp [h]
    exact le_of_lt hgt
  next hle =>
    exact le_refl _

/-- The inner pass touches only positions `[j, stop]`. -/
theorem innerF_frame (n : Nat) : ∀ (mem : Nat → Int) (j stop k : Nat),
    (k < j ∨ stop < k) → innerLoopF n mem j stop k = mem k := by
  induction n with
  | zero => intro mem j stop k _; rfl
  | succ n ih =>
    intro mem j stop k hk
    simp only [innerLoopF]
    split
    next hj =>
      rw [ih (memSwapStep mem j) (j + 1) stop k (by omega)]
      exact memSwapStep_other mem j k (by omega) (by omega)
    next => rfl

/-- After the inner pass over `[j, stop)`, position `stop` dominates every
input value of `[j, stop]`. -/
theorem innerF_dom (n : Nat) : ∀ (mem : Nat → Int) (j stop : Nat), stop ≤ j + n →
    ∀ k, j ≤ k → k ≤ stop → mem k ≤ innerLoopF n mem j stop stop := by
  induction n with
  | zero =>
    intro mem j stop hns k hjk hks
    have hk : k = stop := by omega
    subst hk
    exact le_refl _
  | succ n ih =>
    intro mem j stop hns k hjk hks
    simp only [innerLoopF]
    split
    next hj =>
      rcases Nat.lt_or_ge k (j + 2) with hk2 | hk2
      · have hle : mem k ≤ memSwapStep mem j (j + 1) := by
          rcases Nat.eq_or_lt_of_le hjk with heq | hlt
          · rw [← heq]
            exact le_memSwapStep_j1_left mem j
          · have hk1 : k = j + 1 := by omega
            rw [hk1]
            exact le_memSwapStep_j1_right mem j
        exact le_trans hle
          (ih (memSwapStep mem j) (j + 1) stop (by omega) (j + 1) (le_refl _) (by omega))
      · have heq : memSwapStep mem j k = mem k :=
          memSwapStep_other mem j k (by omega) (by omega)
        rw [← heq]
        exact ih (memSwapStep mem j) (j + 1) stop (by omega) k (by omega) hks
    next hj =>
      have hk : k = stop := by omega
      subst hk
      exact le_refl _

/-- After the inner pass over `[j, stop)`, position `stop` dominates all
result positions of `[j, stop]`. -/
theorem innerF_last (n : Nat) : ∀ (mem : Nat → Int) (j stop : Nat), stop ≤ j + n →
    ∀ k, j ≤ k → k ≤ stop → innerLoopF n mem j stop k ≤ innerLoopF n mem j stop stop := by
  induction n with
  | zero =>
    intro mem j stop hns k hjk hks
    have hk : k = stop := by omega
    subst hk
    exact le_refl _
  | succ n ih =>
    intro mem j stop hns k hjk hks
    simp only [innerLoopF]
    split
    next hj =>
      rcases Nat.eq_or_lt_of_le hjk with heq | hlt
      · rw [← heq]
        rw [innerF_frame n (memSwapStep mem j) (j + 1) stop j (Or.inl (by omega))]
        exact le_trans (memSwapStep_le mem j)
          (innerF_dom n (memSwapStep mem j) (j + 1) stop (by omega) (j + 1) (le_refl _) (by omega))
      · exact ih (memSwapStep mem j) (j + 1) stop (by omega) k (by omega) hks
    next hj =>
      have hk : k = stop := by omega
      subst hk
      exact le_refl _

/-- An upper bound of the inputs of `[j, stop]` bounds the outputs of the
inner pass there. -/
theorem innerF_ub (n : Nat) : ∀ (mem : Nat → Int) (j stop : Nat) (B : Int),
    (∀ k, j ≤ k → k ≤ stop → mem k ≤ B) →
    ∀ k, j ≤ k → k ≤ stop → innerLoopF n mem j stop k ≤ B := by
  induction n with
  | zero => intro mem j stop B hB k h1 h2; exact hB k h1 h2
  | succ n ih =>
    intro mem j stop B hB k h1 h2
    simp only [innerLoopF]
    split
    next hj =>
      have hB' : ∀ m, j + 1 ≤ m → m ≤ stop → memSwapStep mem j m ≤ B := by
        intro m hm1 hm2
        by_cases hmj : m = j + 1
        · subst hmj
          rcases memSwapStep_j1_cases mem j with hc | hc <;> rw [hc]
          · exact hB j (le_refl _) (by omega)
          · exact hB (j + 1) (by omega) (by omega)
        · rw [memSwapStep_other mem j m (by omega) hmj]
          exact hB m (by omega) hm2
      by_cases hkj : k = j
      · subst hkj
        rw [innerF_frame n (memSwapStep mem k) (k + 1) stop k (Or.inl (by omega))]
        rcases memSwapStep_j_cases mem k with hc | hc <;> rw [hc]
        · exact hB k (le_refl _) h2
        · exact hB (k + 1) (by omega) (by omega)
      · exact ih (memSwapStep mem j) (j + 1) stop B hB' k (by omega) h2
    next => exact hB k h1 h2

/-- One inner pass with bound `stop` extends the sorted, dominating tail
from `[stop+1, e)` to `[stop, e)`. -/
theorem pass_step (mem : Nat → Int) (s e stop : Nat) (hs : s ≤ stop) (_he : stop + 1 ≤ e)
    (h : SortedFrom mem s e (stop + 1)) : SortedFrom (innerLoop mem s stop) s e stop := by
  obtain ⟨h1, h2⟩ := h
  have hub : ∀ q, stop + 1 ≤ q → q < e → ∀ k, s ≤ k → k ≤ stop →
      innerLoop mem s stop k ≤ mem q := by
    intro q hq1 hq2 k hk1 hk2
    refine innerF_ub (stop - s) mem s stop (mem q) ?_ k hk1 hk2
    intro m hm1 hm2
    exact h2 m q hm1 (by omega) hq1 hq2
  have hframe : ∀ k, stop < k → innerLoop mem s stop k = mem k := by
    intro k hk
    exact innerF_frame (stop - s) mem s stop k (Or.inr hk)
  constructor
  · intro p q hp hpq hq
    rcases Nat.eq_or_lt_of_le hp with hps | hps
    · rcases Nat.eq_or_lt_of_le hpq with hpq2 | hpq2
      · rw [hpq2]
      · rw [← hps, hframe q (by omega)]
        exact hub q (by omega) hq stop hs (le_refl _)
    · rw [hframe p hps, hframe q (by omega)]
      exact h1 p q (by omega) hpq hq
  · intro p q hp hpb hq1 hq2
    rcases Nat.eq_or_lt_of_le hq1 with hqs | hqs
    · rw [← hqs]
      exact innerF_last (stop - s) mem s stop (by omega) p hp (by omega)
    · rw [hframe q (by omega)]
      exact hub q (by omega) hq2 p hp (by omega)

/-- The outer loop touches only positions `[s, e)`. -/
theorem outerF_frame (n : Nat) : ∀ (mem : Nat → Int) (s e i k : Nat), s ≤ i →
    (k < s ∨ e ≤ k) → outerLoopF n mem s e i k = mem k := by
  induction n with
  | zero => intro mem s e i k _ _; rfl
  | succ n ih =>
    intro mem s e i k hsi hk
    simp only [outerLoopF]
    split
    next hi =>
      rw [ih (innerLoop mem s (e - (i - s) - 1)) s e (i + 1) k (by omega) hk]
      exact innerF_frame _ mem s (e - (i - s) - 1) k (by omega)
    next => rfl

/-- Outer-loop invariant: starting from iteration `i` with the tail
`[e - (i - s), e)` sorted and dominating, the loop finishes with the tail
`[s+1, e)` sorted and dominating. -/
theorem outerF_inv (n : Nat) : ∀ (mem : Nat → Int) (s e i : Nat),
    s ≤ i → i ≤ e - 1 → (e - 1) - i ≤ n → 1 ≤ e →
    SortedFrom mem s e (e - (i - s)) →
    SortedFrom (outerLoopF n mem s e i) s e (s + 1) := by
  induction n with
  | zero =>
    intro mem s e i hsi hie hni he hinv
    have hi : i = e - 1 := by omega
    have hb : e - (i - s) = s + 1 := by omega
    rw [hb] at hinv
    exact hinv
  | succ n ih =>
    intro mem s e i hsi hie hni he hinv
    simp only [outerLoopF]
    split
    next hi =>
      have hb : e - (i - s) = (e - (i - s) - 1) + 1 := by omega
      rw [hb] at hinv
      have hpass := pass_step mem s e (e - (i - s) - 1) (by omega) (by omega) hinv
      have hb2 : e - ((i + 1) - s) = e - (i - s) - 1 := by omega
      refine ih (innerLoop mem s (e - (i - s) - 1)) s e (i + 1) (by omega) (by omega) (by omega) he ?_
      rw [hb2]
      exact hpass
    next hi =>
      have hieq : i = e - 1 := by omega
      have hb : e - (i - s) = s + 1 := by omega
      rw [hb] at hinv
      exact hinv

/-- The full outer loop sorts `[s, e)` in ascending order. -/
theorem outerF_sorts (mem : Nat → Int) (s e : Nat) :
    ∀ p q, s ≤ p → p ≤ q → q < e →
    outerLoopF ((e - 1) - s) mem s e s p ≤ outerLoopF ((e - 1) - s) mem s e s q := by
  intro p q hp hpq hq
  by_cases he2 : s + 2 ≤ e
  · have hinv0 : SortedFrom mem s e (e - (s - s)) := by
      constructor
      · intro p' q' hp' hpq' hq'
        exact absurd hq' (by omega)
      · intro p' q' hp1 hp2 hq1 hq2
        exact absurd hq2 (by omega)
    have hres := outerF_inv ((e - 1) - s) mem s e s (le_refl s) (by omega) (le_refl _)
      (by omega) hinv0
    obtain ⟨t1, t2⟩ := hres
    rcases Nat.eq_or_lt_of_le hp with hps | hps
    · rcases Nat.eq_or_lt_of_le hpq with hpq2 | hpq2
      · rw [hpq2]
      · rw [← hps]
        exact t2 s q (le_refl _) (by omega) (by omega) hq
    · exact t1 p q (by omega) hpq hq
  · have hpq2 : p = q := by omega
    rw [hpq2]

/-- The four-core fold of `sort_memory`, unfolded. -/
theorem sort_memory_eq (mem : Nat → Int) :
    sort_memory mem =
      bubble_sort_memory 3 (bubble_sort_memory 2 (bubble_sort_memory 1 (bubble_sort_memory 0 mem))) := by
  have hr : List.range NUM_CORES = [0, 1, 2, 3] := by rfl
  rw [sort_memory, hr]
  rw [List.foldl_cons, List.foldl_cons, List.foldl_cons, List.foldl_cons, List.foldl_nil]

/-- `bubble_sort_memory` sorts the core's own partition. -/
theorem bubble_sort_memory_sorted (i : Nat) (mem : Nat → Int) :
    ∀ p q, i * (MEMORY_SIZE / NUM_CORES) ≤ p → p ≤ q →
    q < i * (MEMORY_SIZE / NUM_CORES) + MEMORY_SIZE / NUM_CORES →
    bubble_sort_memory i mem p ≤ bubble_sort_memory i mem q := by
  intro p q h1 h2 h3
  exact outerF_sorts mem (i * (MEMORY_SIZE / NUM_CORES))
    (i * (MEMORY_SIZE / NUM_CORES) + MEMORY_SIZE / NUM_CORES) p q h1 h2 h3

/-- `bubble_sort_memory` changes nothing outside the core's partition. -/
theorem bubble_sort_memory_frame (i : Nat) (mem : Nat → Int) (p : Nat)
    (h : p < i * (MEMORY_SIZE / NUM_CORES) ∨
         i * (MEMORY_SIZE / NUM_CORES) + MEMORY_SIZE / NUM_CORES ≤ p) :
    bubble_sort_memory i mem p = mem p :=
  outerF_frame _ mem (i * (MEMORY_SIZE / NUM_CORES))
    (i * (MEMORY_SIZE / NUM_CORES) + MEMORY_SIZE / NUM_CORES) _ p (le_refl _) h

/-- A comparison step inside `[lo, hi)` depends only on the values inside
`[lo, hi)`. -/
theorem memSwapStep_congr (mem1 mem2 : Nat → Int) (j lo hi : Nat)
    (hagree : ∀ k, lo ≤ k → k < hi → mem1 k = mem2 k)
    (hj : lo ≤ j) (hj1 : j + 1 < hi) :
    ∀ k, lo ≤ k → k < hi → memSwapStep mem1 j k = memSwapStep mem2 j k := by
  intro k hk1 hk2
  have e1 : mem1 j = mem2 j := hagree j hj (by omega)
  have e2 : mem1 (j + 1) = mem2 (j + 1) := hagree (j + 1) (by omega) hj1
  by_cases hc : mem2 j > mem2 (j + 1)
  · have hc1 : mem1 j > mem1 (j + 1) := by rw [e1, e2]; exact hc
    simp only [memSwapStep, if_pos hc, if_pos hc1]
    by_cases hkj : k = j
    · simp [hkj, e2]
    · by_cases hkj1 : k = j + 1
      · simp [hkj, hkj1, e1]
      · simp [hkj, hkj1]
        exact hagree k hk1 hk2
  · have hc1 : ¬ mem1 j > mem1 (j + 1) := by rw [e1, e2]; exact hc
    simp only [memSwapStep, if_neg hc, if_neg hc1]
    exact hagree k hk1 hk2

/-- The inner pass inside `[lo, hi)` depends only on the values inside
`[lo, hi)`. -/
theorem innerF_congr (n : Nat) : ∀ (mem1 mem2 : Nat → Int) (j stop lo hi : Nat),
    (∀ k, lo ≤ k → k < hi → mem1 k = mem2 k) → lo ≤ j → stop < hi →
    ∀ k, lo ≤ k → k < hi → innerLoopF n mem1 j stop k = innerLoopF n mem2 j stop k := by
  induction n with
  | zero => intro mem1 mem2 j stop lo hi hagree _ _ k hk1 hk2; exact hagree k hk1 hk2
  | succ n ih =>
    intro mem1 mem2 j stop lo hi hagree hj hstop k hk1 hk2
    simp only [innerLoopF]
    split
    next hjs =>
      exact ih (memSwapStep mem1 j) (memSwapStep mem2 j) (j + 1) stop lo hi
        (memSwapStep_congr mem1 mem2 j lo hi hagree hj (by omega)) (by omega) hstop k hk1 hk2
    next => exact hagree k hk1 hk2

/-- The outer loop over `[s, e)` depends only on the values inside
`[s, e)`: the sort of a partition never reads outside it. -/
theorem outerF_congr (n : Nat) : ∀ (mem1 mem2 : Nat → Int) (s e i : Nat),
    (∀ k, s ≤ k → k < e → mem1 k = mem2 k) → s ≤ i →
    ∀ k, s ≤ k → k < e → outerLoopF n mem1 s e i k = outerLoopF n mem2 s e i k := by
  induction n with
  | zero => intro mem1 mem2 s e i hagree _ k hk1 hk2; exact hagree k hk1 hk2
  | succ n ih =>
    intro mem1 mem2 s e i hagree hsi k hk1 hk2
    simp only [outerLoopF]
    split
    next hi =>
      refine ih (innerLoop mem1 s (e - (i - s) - 1)) (innerLoop mem2 s (e - (i - s) - 1))
        s e (i + 1) ?_ (by omega) k hk1 hk2
      intro m hm1 hm2
      exact innerF_congr _ mem1 mem2 s (e - (i - s) - 1) s e hagree (le_refl _) (by omega) m hm1 hm2
    next => exact hagree k hk1 hk2

/-- Two memories that agree on a window have equal window contents. -/
theorem seg_congr (mem1 mem2 : Nat → Int) (lo len : Nat)
    (h : ∀ k, lo ≤ k → k < lo + len → mem1 k = mem2 k) :
    seg mem1 lo len = seg mem2 lo len := by
  simp only [seg]
  apply List.map_congr_left
  intro t ht
  have := List.mem_range.mp ht
  exact h (lo + t) (by omega) (by omega)

/-- Splitting a window into two consecutive windows. -/
theorem seg_add (mem : Nat → Int) (lo x y : Nat) :
    seg mem lo (x + y) = seg mem lo x ++ seg mem (lo + x) y := by
  simp only [seg, List.range_add, List.map_append, List.map_map]
  congr 1
  apply List.map_congr_left
  intro t _
  simp only [Function.comp_apply]
  congr 1
  omega

/-- A two-element window. -/
theorem seg_two (mem : Nat → Int) (lo : Nat) :
    seg mem lo 2 = [mem lo, mem (lo + 1)] := by
  rfl

/-- In the swapping case, position `j` receives the old `memory[j+1]`. -/
theorem memSwapStep_swap_j (mem : Nat → Int) (j : Nat) (hc : mem j > mem (j + 1)) :
    memSwapStep mem j j = mem (j + 1) := by
  simp [memSwapStep, hc]

/-- In the swapping case, position `j+1` receives the old `memory[j]`. -/
theorem memSwapStep_swap_j1 (mem : Nat → Int) (j : Nat) (hc : mem j > mem (j + 1)) :
    memSwapStep mem j (j + 1) = mem j := by
  have h : j + 1 ≠ j := by omega
  simp [memSwapStep, hc, h]

/-- A comparison step permutes the contents of any window containing the
compared pair. -/
theorem memSwapStep_perm (mem : Nat → Int) (j lo len : Nat)
    (hj : lo ≤ j) (hj1 : j + 1 < lo + len) :
    (seg (memSwapStep mem j) lo len).Perm (seg mem lo len) := by
  by_cases hc : mem j > mem (j + 1)
  case neg =>
    have hid : memSwapStep mem j = mem := by simp [memSwapStep, hc]
    rw [hid]
  case pos =>
    obtain ⟨a, ha⟩ : ∃ a, j = lo + a := ⟨j - lo, by omega⟩
    obtain ⟨b, hb⟩ : ∃ b, len = a + 2 + b := ⟨len - a - 2, by omega⟩
    subst ha hb
    have hsplit : ∀ m : Nat → Int, seg m lo (a + 2 + b) =
        (seg m lo a ++ [m (lo + a), m (lo + a + 1)]) ++ seg m (lo + a + 2) b := by
      intro m
      have h1 : seg m lo (a + 2 + b) = seg m lo (a + 2) ++ seg m (lo + (a + 2)) b :=
        seg_add m lo (a + 2) b
      have h2 : seg m lo (a + 2) = seg m lo a ++ seg m (lo + a) 2 := seg_add m lo a 2
      have h3 : lo + (a + 2) = lo + a + 2 := by omega
      rw [h1, h2, seg_two, h3]
    rw [hsplit (memSwapStep mem (lo + a)), hsplit mem]
    have hpre : seg (memSwapStep mem (lo + a)) lo a = seg mem lo a := by
      apply seg_congr
      intro k hk1 hk2
      exact memSwapStep_other mem (lo + a) k (by omega) (by omega)
    have hpost : seg (memSwapStep mem (lo + a)) (lo + a + 2) b = seg mem (lo + a + 2) b := by
      apply seg_congr
      intro k hk1 hk2
      exact memSwapStep_other mem (lo + a) k (by omega) (by omega)
    rw [hpre, hpost, memSwapStep_swap_j mem (lo + a) hc, memSwapStep_swap_j1 mem (lo + a) hc]
    refine List.Perm.append_right (seg mem (lo + a + 2) b) ?_
    refine List.Perm.append_left (seg mem lo a) ?_
    exact List.Perm.swap (mem (lo + a)) (mem (lo + a + 1)) []

/-- The inner pass permutes the contents of any window containing the
positions it touches. -/
theorem innerF_perm (n : Nat) : ∀ (mem : Nat → Int) (j stop lo len : Nat),
    lo ≤ j → stop < lo + len →
    (seg (innerLoopF n mem j stop) lo len).Perm (seg mem lo len) := by
  induction n with
  | zero => intro mem j stop lo len _ _; exact List.Perm.refl _
  | succ n ih =>
    intro mem j stop lo len hj hstop
    simp only [innerLoopF]
    split
    next hjs =>
      exact (ih (memSwapStep mem j) (j + 1) stop lo len (by omega) hstop).trans
        (memSwapStep_perm mem j lo len hj (by omega))
    next => exact List.Perm.refl _

/-- The outer loop permutes the contents of `[s, e)`. -/
theorem outerF_perm (n : Nat) : ∀ (mem : Nat → Int) (s e i : Nat), s ≤ i →
    (seg (outerLoopF n mem s e i) s (e - s)).Perm (seg mem s (e - s)) := by
  induction n with
  | zero => intro mem s e i _; exact List.Perm.refl _
  | succ n ih =>
    intro mem s e i hsi
    simp only [outerLoopF]
    split
    next hi =>
      refine (ih (innerLoop mem s (e - (i - s) - 1)) s e (i + 1) (by omega)).trans ?_
      exact innerF_perm (e - (i - s) - 1 - s) mem s (e - (i - s) - 1) s (e - s)
        (le_refl _) (by omega)
    next => exact List.Perm.refl _

/-- `bubble_sort_memory` permutes (and only permutes) the words of the
core's own partition. -/
theorem bubble_sort_memory_perm (i : Nat) (mem : Nat → Int) :
    (seg (bubble_sort_memory i mem) (i * (MEMORY_SIZE / NUM_CORES)) (MEMORY_SIZE / NUM_CORES)).Perm
      (seg mem (i * (MEMORY_SIZE / NUM_CORES)) (MEMORY_SIZE / NUM_CORES)) := by
  have h := outerF_perm ((i * (MEMORY_SIZE / NUM_CORES) + MEMORY_SIZE / NUM_CORES - 1) -
      i * (MEMORY_SIZE / NUM_CORES)) mem (i * (MEMORY_SIZE / NUM_CORES))
      (i * (MEMORY_SIZE / NUM_CORES) + MEMORY_SIZE / NUM_CORES) (i * (MEMORY_SIZE / NUM_CORES))
      (le_refl _)
  have hlen : i * (MEMORY_SIZE / NUM_CORES) + MEMORY_SIZE / NUM_CORES -
      i * (MEMORY_SIZE / NUM_CORES) = MEMORY_SIZE / NUM_CORES :=
    Nat.add_sub_cancel_left (i * (MEMORY_SIZE / NUM_CORES)) (MEMORY_SIZE / NUM_CORES)
  rw [hlen] at h
  exact h

/-- C8: sorting core `i`'s memory partition — with `bubble_sort_memory`
directly, and inside `sort_memory` over all cores — arranges the words of
`[i*(SIZE/N), (i+1)*(SIZE/N))` into ascending order (a permutation of the
original words of that window), never changes any memory value outside the
half-open range, and never reads across the partition boundary (the result
inside the partition depends only on the values inside it). -/
theorem c8_partition_sort_isolation (mem : Nat → Int) (i : Nat) (hi : i < NUM_CORES) :
    (∀ p q, i * (MEMORY_SIZE / NUM_CORES) ≤ p → p ≤ q →
        q < i * (MEMORY_SIZE / NUM_CORES) + MEMORY_SIZE / NUM_CORES →
        bubble_sort_memory i mem p ≤ bubble_sort_memory i mem q) ∧
    (seg (bubble_sort_memory i mem) (i * (MEMORY_SIZE / NUM_CORES))
        (MEMORY_SIZE / NUM_CORES)).Perm
      (seg mem (i * (MEMORY_SIZE / NUM_CORES)) (MEMORY_SIZE / NUM_CORES)) ∧
    (∀ p, p < i * (MEMORY_SIZE / NUM_CORES) ∨
        i * (MEMORY_SIZE / NUM_CORES) + MEMORY_SIZE / NUM_CORES ≤ p →
        bubble_sort_memory i mem p = mem p) ∧
    (∀ mem2 : Nat → Int,
        (∀ k, i * (MEMORY_SIZE / NUM_CORES) ≤ k →
            k < i * (MEMORY_SIZE / NUM_CORES) + MEMORY_SIZE / NUM_CORES → mem k = mem2 k) →
        ∀ k, i * (MEMORY_SIZE / NUM_CORES) ≤ k →
            k < i * (MEMORY_SIZE / NUM_CORES) + MEMORY_SIZE / NUM_CORES →
            bubble_sort_memory i mem k = bubble_sort_memory i mem2 k) ∧
    (∀ p q, i * (MEMORY_SIZE / NUM_CORES) ≤ p → p ≤ q →
        q < i * (MEMORY_SIZE / NUM_CORES) + MEMORY_SIZE / NUM_CORES →
        sort_memory mem p ≤ sort_memory mem q) := by
  refine ⟨bubble_sort_memory_sorted i mem, bubble_sort_memory_perm i mem,
    fun p h => bubble_sort_memory_frame i mem p h, ?_, ?_⟩
  · intro mem2 hag k hk1 hk2
    exact outerF_congr _ mem mem2 (i * (MEMORY_SIZE / NUM_CORES))
      (i * (MEMORY_SIZE / NUM_CORES) + MEMORY_SIZE / NUM_CORES) (i * (MEMORY_SIZE / NUM_CORES))
      hag (le_refl _) k hk1 hk2
  · intro p q h1 h2 h3
    rw [sort_memory_eq]
    have hP : MEMORY_SIZE / NUM_CORES = 1024 := rfl
    rw [hP] at h1 h3
    have hi4 : i < 4 := hi
    interval_cases i
    · rw [bubble_sort_memory_frame 3 _ p (Or.inl (by simp only [hP]; omega)),
          bubble_sort_memory_frame 3 _ q (Or.inl (by simp only [hP]; omega)),
          bubble_sort_memory_frame 2 _ p (Or.inl (by simp only [hP]; omega)),
          bubble_sort_memory_frame 2 _ q (Or.inl (by simp only [hP]; omega)),
          bubble_sort_memory_frame 1 _ p (Or.inl (by simp only [hP]; omega)),
          bubble_sort_memory_frame 1 _ q (Or.inl (by simp only [hP]; omega))]
      exact bubble_sort_memory_sorted 0 mem p q (by simp only [hP]; omega) h2
        (by simp only [hP]; omega)
    · rw [bubble_sort_memory_frame 3 _ p (Or.inl (by simp only [hP]; omega)),
          bubble_sort_memory_frame 3 _ q (Or.inl (by simp only [hP]; omega)),
          bubble_sort_memory_frame 2 _ p (Or.inl (by simp only [hP]; omega)),
          bubble_sort_memory_frame 2 _ q (Or.inl (by simp only [hP]; omega))]
      exact bubble_sort_memory_sorted 1 (bubble_sort_memory 0 mem) p q
        (by simp only [hP]; omega) h2 (by simp only [hP]; omega)
    · rw [bubble_sort_memory_frame 3 _ p (Or.inl (by simp only [hP]; omega)),
          bubble_sort_memory_frame 3 _ q (Or.inl (by simp only [hP]; omega))]
      exact bubble_sort_memory_sorted 2
        (bubble_sort_memory 1 (bubble_sort_memory 0 mem)) p q
        (by simp only [hP]; omega) h2 (by simp only [hP]; omega)
    · exact bubble_sort_memory_sorted 3
        (bubble_sort_memory 2 (bubble_sort_memory 1 (bubble_sort_memory 0 mem))) p q
        (by simp only [hP]; omega) h2 (by simp only [hP]; omega)

/-- Witness for `c8_partition_sort_isolation`: core 1's partition on a
concrete memory. -/
theorem c8_partition_sort_isolation_witness :
    bubble_sort_memory 1 memW 1500 ≤ bubble_sort_memory 1 memW 1600 ∧
    bubble_sort_memory 1 memW 99 = memW 99 ∧
    sort_memory memW 1500 ≤ sort_memory memW 1600 :=
  ⟨(c8_partition_sort_isolation memW 1 (by decide)).1 1500 1600 (by decide) (by decide)
      (by decide),
   (c8_partition_sort_isolation memW 1 (by decide)).2.2.1 99 (Or.inl (by decide)),
   (c8_partition_sort_isolation memW 1 (by decide)).2.2.2.2 1500 1600 (by decide) (by decide)
      (by decide)⟩

end Riscv
